import Mathlib

/-!
Verification of the prop-combination enumerator and JSX serializer of the
`the-sealed-scroll` repository (`ComponentCombinationBrowser` and
`ComponentPlayground`).

The embedding models JavaScript runtime values that can occur as component
props by the inductive `JSValue`; a props object (`Record<string, any>`) is
an association list of string keys and values, in the key-insertion order
that `Object.keys` / `Object.entries` report for string keys.  Keys of a
JavaScript object are unique; theorems that need this state it as a
`Nodup` hypothesis.
-/

set_option autoImplicit false

namespace SealedScroll

/--
A JavaScript value appearing as a component prop.

* `undef` — `undefined`;
* `boolVal b` — a boolean;
* `strVal s` — a string;
* `numVal n` — a number (only integral numbers are modelled; the serializer
  merely forwards numbers through `JSON.stringify`, whose rendering of an
  integral number is its decimal notation);
* `reactElem json` — an object whose `$$typeof` field is truthy (a React
  element); `json` is the string `JSON.stringify` renders for the underlying
  object, so that the serializer lacking the `$$typeof` test can be modelled
  on the same values;
* `jsonVal json` — any other JSON-serializable value (plain object, array,
  `null`, ...), represented by the string `json` that `JSON.stringify`
  renders for it;
* `funcVal` — a function (`JSON.stringify` returns `undefined` on it).
-/
inductive JSValue where
  | undef
  | boolVal (b : Bool)
  | strVal (s : String)
  | numVal (n : Int)
  | reactElem (json : String)
  | jsonVal (json : String)
  | funcVal
deriving DecidableEq

/-- A props object: ordered association list of key/value entries. -/
abbrev PropSet := List (String × JSValue)

/--
The `propOptions` argument of `ComponentCombinationBrowser`: for each
property name (in `Object.keys` order) an optional candidate list, `none`
modelling a key whose value is `undefined` (the TypeScript type is
`{ [K in keyof Props]?: Props[K][] }`, so a present key may still hold
`undefined`; the source then takes `options[key] ?? []`).
-/
abbrev Options := List (String × Option (List JSValue))

/-- `options[key] ?? []` — the candidate list of an entry, coalescing
`undefined` to the empty list. -/
def optionValues : Option (List JSValue) → List JSValue
  | none => []
  | some vs => vs

/--
JavaScript object property assignment `{ ...current, [key]: value }`: if
`key` is already present its entry keeps its position and takes the new
value, otherwise the entry is appended at the end (insertion order of string
keys; the props in this repository are identifier-named, so the special
JavaScript ordering of integer-like keys is not modelled).
-/
def setProp : PropSet → String → JSValue → PropSet
  | [], key, v => [(key, v)]
  | e :: rest, key, v =>
      if e.1 = key then (key, v) :: rest else e :: setProp rest key v

/-- Property read `ps[key]`: the value of the first entry with that key. -/
def getProp (ps : PropSet) (key : String) : Option JSValue :=
  (ps.find? (fun e => e.1 == key)).map (fun e => e.2)

/--
The inner recursion of `getAllCombinations`:

```ts
const combine = (index = 0, current = {}) => {
    if (index === keys.length) return [current];
    const key = keys[index];
    const values = options[key] ?? [];
    return values.flatMap((value) =>
        combine(index + 1, { ...current, [key]: value }));
};
```

The walk from `index` up to `keys.length` is embedded as structural
recursion over the list of remaining entries (the entry at position `index`
is the head); `options[key]` is the entry's candidate list since `keys` are
exactly the keys of `options`.
-/
def combine : Options → PropSet → List PropSet
  | [], current => [current]
  | e :: rest, current =>
      (optionValues e.2).flatMap (fun value => combine rest (setProp current e.1 value))

/--
```ts
function getAllCombinations(options) {
    const keys = Object.keys(options);
    if (keys.length === 0) return [];
    ...
    return combine();
}
```
-/
def getAllCombinations (options : Options) : List PropSet :=
  if options.length = 0 then [] else combine options []

/-- The candidate-list length of each property, in declaration order. -/
def optionLengths (options : Options) : List Nat :=
  options.map (fun e => (optionValues e.2).length)

theorem combine_length (options : Options) (current : PropSet) :
    (combine options current).length = (optionLengths options).prod := by
  induction options generalizing current with
  | nil => simp [combine, optionLengths]
  | cons e rest ih =>
      simp only [combine, optionLengths, List.map_cons, List.prod_cons]
      rw [List.length_flatMap]
      simp only [Function.comp_def]
      have : (List.map (fun value => (combine rest (setProp current e.1 value)).length)
          (optionValues e.2)) =
          (List.map (fun _ => (optionLengths rest).prod) (optionValues e.2)) := by
        exact List.map_congr_left (fun v _ => ih (setProp current e.1 v))
      rw [this, List.map_const', List.sum_replicate, smul_eq_mul]
      rfl

/--
**C1.** `getAllCombinations` returns exactly `n₁ × n₂ × … × nₖ` combinations
where `nᵢ` are the candidate-list lengths, and returns the empty sequence
when there are no properties (`k = 0`) or when some candidate list is empty.
-/
theorem getAllCombinations_count (options : Options) :
    (options ≠ [] →
      (getAllCombinations options).length = (optionLengths options).prod) ∧
    (options = [] → getAllCombinations options = []) ∧
    ((∃ e ∈ options, optionValues e.2 = []) → getAllCombinations options = []) := by
  refine ⟨fun h => ?_, fun h => ?_, fun h => ?_⟩
  · rw [getAllCombinations, if_neg (by simpa [List.length_eq_zero] using h)]
    exact combine_length options []
  · simp [getAllCombinations, h]
  · rcases h with ⟨e, he, hv⟩
    have hne : options ≠ [] := by rintro rfl; exact absurd he (List.not_mem_nil e)
    have hlen : (getAllCombinations options).length = 0 := by
      rw [getAllCombinations, if_neg (by simpa [List.length_eq_zero] using hne),
        combine_length options []]
      exact List.prod_eq_zero (by
        simp only [optionLengths, List.mem_map]
        exact ⟨e, he, by rw [hv]; rfl⟩)
    exact List.length_eq_zero.mp hlen

/-- Witness for C1 at a concrete two-property mapping. -/
theorem getAllCombinations_count_witness :
    (getAllCombinations
      [("a", some [JSValue.boolVal true, JSValue.boolVal false]),
       ("b", some [JSValue.strVal "x", JSValue.strVal "y", JSValue.strVal "z"])]).length =
      (optionLengths
        [("a", some [JSValue.boolVal true, JSValue.boolVal false]),
         ("b", some [JSValue.strVal "x", JSValue.strVal "y", JSValue.strVal "z"])]).prod :=
  (getAllCombinations_count _).1 (by decide)

/-!
### Ordering of the enumeration (C2)

Each emitted combination corresponds to a tuple of candidate-list indices,
one index per property in declaration order.  `indexTuples` enumerates those
tuples exactly in the order `combine` visits them, and that enumeration is
strictly increasing for the lexicographic order on index tuples — earlier
declared properties are the most significant positions, and within one
property the indices (hence the values, in candidate-list order) increase.
-/

/-- All index tuples for candidate-list lengths `ls`, in enumeration order. -/
def indexTuples : List Nat → List (List Nat)
  | [] => [[]]
  | n :: rest => (List.range n).flatMap (fun i => (indexTuples rest).map (fun t => i :: t))

/-- The combination selected by an index tuple: the property at each
position is assigned the candidate at that position's index. -/
def buildCombo : Options → List Nat → PropSet → PropSet
  | [], _, current => current
  | _ :: _, [], current => current
  | e :: rest, i :: is, current =>
      buildCombo rest is (setProp current e.1 ((optionValues e.2).getD i JSValue.undef))

theorem flatMap_eq_range_flatMap {α β : Type} (l : List α) (f : α → List β) (d : α) :
    l.flatMap f = (List.range l.length).flatMap (fun i => f (l.getD i d)) := by
  induction l with
  | nil => simp
  | cons a rest ih =>
      rw [List.length_cons, List.range_succ_eq_map, List.flatMap_cons, List.flatMap_cons,
        List.flatMap_map]
      simp only [List.getD_cons_zero, List.getD_cons_succ, Nat.succ_eq_add_one]
      rw [ih]

theorem combine_eq_indexTuples (options : Options) (current : PropSet) :
    combine options current =
      (indexTuples (optionLengths options)).map (fun t => buildCombo options t current) := by
  induction options generalizing current with
  | nil => simp [combine, indexTuples, optionLengths, buildCombo]
  | cons e rest ih =>
      simp only [combine, optionLengths, List.map_cons, indexTuples]
      rw [flatMap_eq_range_flatMap (optionValues e.2) _ JSValue.undef, List.map_flatMap]
      have heq : ∀ i : Nat,
          combine rest (setProp current e.1 ((optionValues e.2).getD i JSValue.undef)) =
            List.map (fun t => buildCombo (e :: rest) t current)
              (List.map (fun t => i :: t) (indexTuples (List.map
                (fun e => (optionValues e.2).length) rest))) := by
        intro i
        rw [List.map_map, ih]
        rfl
      exact List.flatMap_congr (fun i _ => heq i)

theorem indexTuples_sorted (ls : List Nat) :
    (indexTuples ls).Pairwise (List.Lex (· < ·)) := by
  induction ls with
  | nil => simp [indexTuples]
  | cons n rest ih =>
      rw [indexTuples, List.flatMap_def, List.pairwise_flatten]
      constructor
      · intro l hl
        rw [List.mem_map] at hl
        rcases hl with ⟨i, _, rfl⟩
        rw [List.pairwise_map]
        exact ih.imp (fun h => List.Lex.cons h)
      · rw [List.pairwise_map]
        refine (List.pairwise_lt_range n).imp_of_mem ?_
        intro i j _ _ hij x hx y hy
        rw [List.mem_map] at hx hy
        rcases hx with ⟨t, _, rfl⟩
        rcases hy with ⟨t', _, rfl⟩
        exact List.Lex.rel hij

/--
**C2.** The sequence returned by `getAllCombinations` is lexicographically
ordered: the `i`-th combination is built from the `i`-th index tuple of
`indexTuples`, and those tuples are strictly increasing for the
lexicographic order in which earlier-declared properties are most
significant and, within one property, candidates appear in candidate-list
order (increasing index).
-/
theorem getAllCombinations_ordered (options : Options) :
    (options ≠ [] →
      getAllCombinations options =
        (indexTuples (optionLengths options)).map (fun t => buildCombo options t [])) ∧
    (indexTuples (optionLengths options)).Pairwise (List.Lex (· < ·)) := by
  refine ⟨fun h => ?_, indexTuples_sorted _⟩
  rw [getAllCombinations, if_neg (by simpa [List.length_eq_zero] using h)]
  exact combine_eq_indexTuples options []

/-- Witness for C2 at a concrete two-property mapping. -/
theorem getAllCombinations_ordered_witness :
    getAllCombinations
        [("a", some [JSValue.numVal 0, JSValue.numVal 1]),
         ("b", some [JSValue.strVal "x", JSValue.strVal "y"])] =
      (indexTuples (optionLengths
          [("a", some [JSValue.numVal 0, JSValue.numVal 1]),
           ("b", some [JSValue.strVal "x", JSValue.strVal "y"])])).map
        (fun t => buildCombo
          [("a", some [JSValue.numVal 0, JSValue.numVal 1]),
           ("b", some [JSValue.strVal "x", JSValue.strVal "y"])] t []) :=
  (getAllCombinations_ordered _).1 (by decide)

/-!
### Combinations are full assignments (C3)
-/

theorem getProp_cons (e : String × JSValue) (rest : PropSet) (k : String) :
    getProp (e :: rest) k = if e.1 = k then some e.2 else getProp rest k := by
  by_cases h : e.1 = k <;> simp [getProp, List.find?_cons, h]

theorem getProp_setProp (ps : PropSet) (key : String) (v : JSValue) (k : String) :
    getProp (setProp ps key v) k = if key = k then some v else getProp ps k := by
  induction ps with
  | nil => simp only [setProp, getProp_cons]
  | cons e rest ih =>
      simp only [setProp]
      by_cases he : e.1 = key
      · rw [if_pos he, getProp_cons, getProp_cons, he]
        by_cases hk : key = k <;> simp [hk]
      · rw [if_neg he, getProp_cons, ih, getProp_cons]
        by_cases hk : key = k
        · rw [if_pos hk, if_pos hk, if_neg (fun h => he (h.trans hk.symm))]
        · rw [if_neg hk, if_neg hk]

/-- A key not touched by the remaining recursion keeps the value it has in
`current`. -/
theorem combine_getProp_of_not_mem (options : Options) :
    ∀ current combo : PropSet, combo ∈ combine options current →
      ∀ k : String, k ∉ options.map Prod.fst →
        getProp combo k = getProp current k := by
  induction options with
  | nil =>
      intro current combo hc k _
      simp only [combine, List.mem_singleton] at hc
      rw [hc]
  | cons e rest ih =>
      intro current combo hc k hk
      simp only [combine, List.mem_flatMap] at hc
      rcases hc with ⟨v, _, hcomb⟩
      rw [List.map_cons, List.mem_cons] at hk
      push_neg at hk
      rw [ih _ _ hcomb k hk.2, getProp_setProp, if_neg (fun h => hk.1 h.symm)]

theorem setProp_keys_of_not_mem (ps : PropSet) (key : String) (v : JSValue)
    (h : key ∉ ps.map Prod.fst) :
    (setProp ps key v).map Prod.fst = ps.map Prod.fst ++ [key] := by
  induction ps with
  | nil => simp [setProp]
  | cons e rest ih =>
      rw [List.map_cons, List.mem_cons] at h
      push_neg at h
      simp only [setProp]
      rw [if_neg (fun hh : e.1 = key => h.1 hh.symm), List.map_cons, ih h.2]
      simp

/-- Every emitted combination assigns exactly the keys of the mapping, in
declaration order after the keys already present in `current`. -/
theorem combine_keys (options : Options) :
    ∀ current combo : PropSet, combo ∈ combine options current →
      (∀ k ∈ options.map Prod.fst, k ∉ current.map Prod.fst) →
      (options.map Prod.fst).Nodup →
      combo.map Prod.fst = current.map Prod.fst ++ options.map Prod.fst := by
  induction options with
  | nil =>
      intro current combo hc _ _
      simp only [combine, List.mem_singleton] at hc
      rw [hc, List.map_nil, List.append_nil]
  | cons e rest ih =>
      intro current combo hc hdisj hnd
      simp only [combine, List.mem_flatMap] at hc
      rcases hc with ⟨v, _, hcomb⟩
      rw [List.map_cons, List.nodup_cons] at hnd
      have hkeys := setProp_keys_of_not_mem current e.1 v
        (hdisj e.1 (by rw [List.map_cons]; exact List.mem_cons_self _ _))
      have hdisj' : ∀ k ∈ rest.map Prod.fst, k ∉ (setProp current e.1 v).map Prod.fst := by
        intro k hk
        rw [hkeys, List.mem_append, List.mem_singleton]
        rintro (h1 | h2)
        · exact hdisj k (by rw [List.map_cons]; exact List.mem_cons_of_mem _ hk) h1
        · exact hnd.1 (h2 ▸ hk)
      rw [ih _ _ hcomb hdisj' hnd.2, hkeys, List.map_cons, List.append_assoc,
        List.singleton_append]

/-- Every value a combination assigns comes from that key's candidate list. -/
theorem combine_assigns (options : Options) :
    (options.map Prod.fst).Nodup →
    ∀ current combo : PropSet, combo ∈ combine options current →
      ∀ k ovs, (k, ovs) ∈ options →
        ∃ v, v ∈ optionValues ovs ∧ getProp combo k = some v := by
  induction options with
  | nil =>
      intro _ current combo _ k ovs h
      exact absurd h (List.not_mem_nil _)
  | cons e rest ih =>
      intro hnd current combo hc k ovs hmem
      simp only [combine, List.mem_flatMap] at hc
      rcases hc with ⟨v, hv, hcomb⟩
      rw [List.map_cons, List.nodup_cons] at hnd
      rcases List.mem_cons.mp hmem with heq | hrest
      · refine ⟨v, ?_, ?_⟩
        · have hovs : ovs = e.2 := by rw [← heq]
          rw [hovs]; exact hv
        · have hk : k = e.1 := by rw [← heq]
          rw [hk, combine_getProp_of_not_mem rest _ _ hcomb e.1 hnd.1,
            getProp_setProp, if_pos rfl]
      · exact ih hnd.2 _ _ hcomb k ovs hrest

/--
**C3.** For a non-empty mapping with distinct property names, every
combination emitted by `getAllCombinations` is a full assignment: its keys
are exactly the mapping's property names, and each key's assigned value is
drawn from that key's candidate list.
-/
theorem getAllCombinations_full_assignment (options : Options)
    (hne : options ≠ []) (hnd : (options.map Prod.fst).Nodup)
    (combo : PropSet) (hc : combo ∈ getAllCombinations options) :
    combo.map Prod.fst = options.map Prod.fst ∧
    ∀ k ovs, (k, ovs) ∈ options →
      ∃ v, v ∈ optionValues ovs ∧ getProp combo k = some v := by
  rw [getAllCombinations, if_neg (by simpa [List.length_eq_zero] using hne)] at hc
  refine ⟨?_, combine_assigns options hnd [] combo hc⟩
  have := combine_keys options [] combo hc (by intro k _; simp) hnd
  simpa using this

/-- Witness for C3: in the mapping `{a: [true], b: ["x", "y"]}` the first
combination assigns `a := true` and `b := "x"`, both from the candidate
lists. -/
theorem getAllCombinations_full_assignment_witness :
    [("a", JSValue.boolVal true), ("b", JSValue.strVal "x")].map Prod.fst =
        ([("a", some [JSValue.boolVal true]),
          ("b", some [JSValue.strVal "x", JSValue.strVal "y"])] : Options).map Prod.fst ∧
      ∀ k ovs, (k, ovs) ∈ ([("a", some [JSValue.boolVal true]),
          ("b", some [JSValue.strVal "x", JSValue.strVal "y"])] : Options) →
        ∃ v, v ∈ optionValues ovs ∧
          getProp [("a", JSValue.boolVal true), ("b", JSValue.strVal "x")] k = some v :=
  getAllCombinations_full_assignment
    [("a", some [JSValue.boolVal true]), ("b", some [JSValue.strVal "x", JSValue.strVal "y"])]
    (by decide) (by decide) [("a", JSValue.boolVal true), ("b", JSValue.strVal "x")]
    (by decide)

/-!
### The JSX serializers (C4, C5, C6, C10)

`formatJSX` (ComponentCombinationBrowser) and `generateJSXCode`
(ComponentPlayground) are the same pipeline

```ts
Object.entries(props)
    .filter(([_, value]) => value !== "" && value !== undefined)
    .map(([key, value]) => { ... })
    .filter(Boolean)
    .join("\n");
return `<${name}\n${entries}\n/>`;
```

differing only in the `map` callback: `formatJSX` additionally renders an
object with a truthy `$$typeof` field as the placeholder attribute
`key={<ReactElement />}`.  The callbacks (returning `null` as `none`) are
`formatEntry` and `generateEntry`; `filter(Boolean)` composed with the map
is `List.filterMap`.
-/

/--
The string that the template literal fragment `${JSON.stringify(value)}`
interpolates for a value reaching the serializers' default branch.
`JSON.stringify` applied to a function returns `undefined`, which the
template literal renders as `undefined`; values modelled with an explicit
JSON rendering carry it as their payload.  (The `strVal` line models the
quoting `JSON.stringify` performs; JSON escaping inside the string is not
modelled, and the serializers never reach this branch for strings since the
string case is handled earlier.)
-/
def jsonStringify : JSValue → String
  | .undef => "undefined"
  | .boolVal b => cond b "true" "false"
  | .strVal s => "\"" ++ s ++ "\""
  | .numVal n => toString n
  | .reactElem json => json
  | .jsonVal json => json
  | .funcVal => "undefined"

/-- The entry filter `value !== "" && value !== undefined`. -/
def keepEntry (v : JSValue) : Bool :=
  v != JSValue.strVal "" && v != JSValue.undef

/--
The `map` callback of `formatJSX` (`null` becomes `none`):

```ts
if (typeof value === "boolean") return value ? `  ${key}` : null;
if (typeof value === "string") return `  ${key}="${value}"`;
// Replace React elements with a placeholder
if (typeof value === "object" && value?.$$typeof) return `  ${key}={<ReactElement />}`;
return `  ${key}={${JSON.stringify(value)}}`;
```
-/
def formatEntry (key : String) (v : JSValue) : Option String :=
  match v with
  | .boolVal b => if b then some ("  " ++ key) else none
  | .strVal s => some ("  " ++ key ++ "=\"" ++ s ++ "\"")
  | .reactElem _ => some ("  " ++ key ++ "=\x7b<ReactElement />\x7d")
  | _ => some ("  " ++ key ++ "=\x7b" ++ jsonStringify v ++ "\x7d")

/--
The `map` callback of `generateJSXCode`, which has no React-element test:

```ts
if (typeof value === "boolean") { return value ? `  ${key}` : null; }
else if (typeof value === "string") { return `  ${key}="${value}"`; }
else { return `  ${key}={${JSON.stringify(value)}}`; }
```
-/
def generateEntry (key : String) (v : JSValue) : Option String :=
  match v with
  | .boolVal b => if b then some ("  " ++ key) else none
  | .strVal s => some ("  " ++ key ++ "=\"" ++ s ++ "\"")
  | _ => some ("  " ++ key ++ "=\x7b" ++ jsonStringify v ++ "\x7d")

/-- The `entries` value of `formatJSX` before the final `.join("\n")`. -/
def formatJSXEntries (props : PropSet) : List String :=
  (props.filter (fun e => keepEntry e.2)).filterMap (fun e => formatEntry e.1 e.2)

/-- `formatJSX` of ComponentCombinationBrowser. -/
def formatJSX (name : String) (props : PropSet) : String :=
  "<" ++ name ++ "\n" ++ String.intercalate "\n" (formatJSXEntries props) ++ "\n/>"

/-- The `propsEntries` value of `generateJSXCode` before the final join. -/
def generateJSXEntries (props : PropSet) : List String :=
  (props.filter (fun e => keepEntry e.2)).filterMap (fun e => generateEntry e.1 e.2)

/-- `generateJSXCode` of ComponentPlayground. -/
def generateJSXCode (name : String) (props : PropSet) : String :=
  "<" ++ name ++ "\n" ++ String.intercalate "\n" (generateJSXEntries props) ++ "\n/>"

/--
**C4 counterexample.** In `formatJSX` a React-element value does *not*
render as a JSON-encoded expression in braces: it renders as the fixed
placeholder `key={<ReactElement />}`, which differs from the JSON-encoded
rendering `key={...}` of the same value.
-/
theorem formatJSX_reactElem_counterexample :
    formatJSX "X" [("a", JSValue.reactElem "\x7b\x7d")] =
        "<X\n  a=\x7b<ReactElement />\x7d\n/>" ∧
      formatJSX "X" [("a", JSValue.reactElem "\x7b\x7d")] ≠
        "<X\n  a=\x7b" ++ jsonStringify (JSValue.reactElem "\x7b\x7d") ++ "\x7d\n/>" :=
  ⟨by decide, by decide⟩

/--
**C4 (amended).** Each kept entry renders as follows: boolean `true` as the
bare attribute name, a string as the name with the value in double quotes,
and every other value as the name with a JSON-encoded expression in braces —
except that in `formatJSX` (not in `generateJSXCode`) an object with a
truthy `$$typeof` field renders as the placeholder `key={<ReactElement />}`
instead of its JSON encoding.
-/
theorem serializer_entry_forms (props : PropSet) :
    formatJSXEntries props = props.filterMap (fun e =>
        if keepEntry e.2 then
          match e.2 with
          | JSValue.boolVal b => if b then some ("  " ++ e.1) else none
          | JSValue.strVal s => some ("  " ++ e.1 ++ "=\"" ++ s ++ "\"")
          | JSValue.reactElem _ => some ("  " ++ e.1 ++ "=\x7b<ReactElement />\x7d")
          | v => some ("  " ++ e.1 ++ "=\x7b" ++ jsonStringify v ++ "\x7d")
        else none) ∧
    generateJSXEntries props = props.filterMap (fun e =>
        if keepEntry e.2 then
          match e.2 with
          | JSValue.boolVal b => if b then some ("  " ++ e.1) else none
          | JSValue.strVal s => some ("  " ++ e.1 ++ "=\"" ++ s ++ "\"")
          | v => some ("  " ++ e.1 ++ "=\x7b" ++ jsonStringify v ++ "\x7d")
        else none) := by
  constructor
  · rw [formatJSXEntries, List.filterMap_filter]
    congr 1
    funext e
    rcases e with ⟨k, v⟩
    cases v <;> rfl
  · rw [generateJSXEntries, List.filterMap_filter]
    congr 1
    funext e
    rcases e with ⟨k, v⟩
    cases v <;> rfl

/-- The values C5 says are omitted: empty string, `undefined`, `false`. -/
def omittedVal (v : JSValue) : Bool :=
  v == JSValue.strVal "" || v == JSValue.undef || v == JSValue.boolVal false

theorem keep_entry_if_eq (f : String → JSValue → Option String)
    (hfalse : ∀ k, f k (JSValue.boolVal false) = none) (k : String) (v : JSValue) :
    (if keepEntry v then f k v else none) =
      (if !omittedVal v then f k v else none) := by
  cases v with
  | boolVal b =>
      cases b
      · simp [keepEntry, omittedVal, hfalse]
      · rfl
  | strVal s => by_cases hs : s = "" <;> simp [keepEntry, omittedVal, hs]
  | undef => rfl
  | numVal n => rfl
  | reactElem j => rfl
  | jsonVal j => rfl
  | funcVal => rfl

theorem formatEntry_isSome_of_not_omitted (k : String) (v : JSValue)
    (h : omittedVal v = false) : (formatEntry k v).isSome := by
  cases v with
  | undef => exact absurd h (by decide)
  | boolVal b =>
      cases b
      · exact absurd h (by decide)
      · rfl
  | strVal s => rfl
  | numVal n => rfl
  | reactElem j => rfl
  | jsonVal j => rfl
  | funcVal => rfl

theorem generateEntry_isSome_of_not_omitted (k : String) (v : JSValue)
    (h : omittedVal v = false) : (generateEntry k v).isSome := by
  cases v with
  | undef => exact absurd h (by decide)
  | boolVal b =>
      cases b
      · exact absurd h (by decide)
      · rfl
  | strVal s => rfl
  | numVal n => rfl
  | reactElem j => rfl
  | jsonVal j => rfl
  | funcVal => rfl

theorem length_filterMap_of_isSome (f : String × JSValue → Option String) :
    ∀ props : PropSet, (∀ e ∈ props, (f e).isSome) →
      (props.filterMap f).length = props.length := by
  intro props
  induction props with
  | nil => intro _; rfl
  | cons e props ih =>
      intro h
      rw [List.filterMap_cons]
      rcases hsome : f e with _ | a
      · exact absurd (h e (List.mem_cons_self _ _)) (by simp [hsome])
      · simp only [List.length_cons, ih (fun x hx => h x (List.mem_cons_of_mem _ hx))]

theorem entries_eq_filter_not_omitted (f : String → JSValue → Option String)
    (hfalse : ∀ k, f k (JSValue.boolVal false) = none) (props : PropSet) :
    (props.filter (fun e => keepEntry e.2)).filterMap (fun e => f e.1 e.2) =
      (props.filter (fun e => !omittedVal e.2)).filterMap (fun e => f e.1 e.2) := by
  rw [List.filterMap_filter, List.filterMap_filter]
  congr 1
  funext e
  exact keep_entry_if_eq f hfalse e.1 e.2

/--
**C5.** Entries whose value is the empty string, `undefined`, or boolean
`false` never appear as attributes in either serializer's output, and every
other entry yields exactly one attribute (the attribute lists coincide with
the entries surviving the omission filter, one attribute apiece, and each
surviving entry's attribute is a member of the output list).
-/
theorem serializer_omitted_entries (props : PropSet) :
    (formatJSXEntries props =
        (props.filter (fun e => !omittedVal e.2)).filterMap
          (fun e => formatEntry e.1 e.2) ∧
      (formatJSXEntries props).length =
        (props.filter (fun e => !omittedVal e.2)).length) ∧
    (generateJSXEntries props =
        (props.filter (fun e => !omittedVal e.2)).filterMap
          (fun e => generateEntry e.1 e.2) ∧
      (generateJSXEntries props).length =
        (props.filter (fun e => !omittedVal e.2)).length) ∧
    (∀ e ∈ props, omittedVal e.2 = false →
      ∃ a, formatEntry e.1 e.2 = some a ∧ a ∈ formatJSXEntries props) := by
  have hfmt : formatJSXEntries props =
      (props.filter (fun e => !omittedVal e.2)).filterMap (fun e => formatEntry e.1 e.2) :=
    entries_eq_filter_not_omitted formatEntry (fun _ => rfl) props
  have hgen : generateJSXEntries props =
      (props.filter (fun e => !omittedVal e.2)).filterMap (fun e => generateEntry e.1 e.2) :=
    entries_eq_filter_not_omitted generateEntry (fun _ => rfl) props
  refine ⟨⟨hfmt, ?_⟩, ⟨hgen, ?_⟩, ?_⟩
  · rw [hfmt]
    exact length_filterMap_of_isSome _ _ (fun e he =>
      formatEntry_isSome_of_not_omitted e.1 e.2
        (by simpa using (List.mem_filter.mp he).2))
  · rw [hgen]
    exact length_filterMap_of_isSome _ _ (fun e he =>
      generateEntry_isSome_of_not_omitted e.1 e.2
        (by simpa using (List.mem_filter.mp he).2))
  · intro e he hnot
    rcases hsome : formatEntry e.1 e.2 with _ | a
    · exact absurd (formatEntry_isSome_of_not_omitted e.1 e.2 hnot) (by simp [hsome])
    · refine ⟨a, rfl, ?_⟩
      rw [hfmt]
      exact List.mem_filterMap.mpr ⟨e, List.mem_filter.mpr ⟨he, by simp [hnot]⟩, hsome⟩

/-- Witness for C5: a non-omitted entry appears in the output. -/
theorem serializer_omitted_entries_witness :
    ∃ a, formatEntry "a" (JSValue.strVal "x") = some a ∧
      a ∈ formatJSXEntries
        [("e", JSValue.strVal ""), ("a", JSValue.strVal "x"), ("f", JSValue.boolVal false)] :=
  (serializer_omitted_entries
      [("e", JSValue.strVal ""), ("a", JSValue.strVal "x"), ("f", JSValue.boolVal false)]).2.2
    ("a", JSValue.strVal "x") (by decide) (by decide)

/--
**C6.** The serializers have no error conditions: on every props object —
including ones holding React elements or functions — they return a
well-formed tag string, and they degrade gracefully on unserializable
values: `formatJSX` renders any React element as the fixed placeholder
`key={<ReactElement />}` regardless of the element's content, and both
serializers render a function (whose `JSON.stringify` is `undefined`) as
the token `key={undefined}`.
-/
theorem serializer_total_graceful (name : String) (props : PropSet) :
    (∃ attrs, formatJSX name props =
        "<" ++ name ++ "\n" ++ String.intercalate "\n" attrs ++ "\n/>") ∧
    (∃ attrs, generateJSXCode name props =
        "<" ++ name ++ "\n" ++ String.intercalate "\n" attrs ++ "\n/>") ∧
    (∀ k json, formatEntry k (JSValue.reactElem json) =
        some ("  " ++ k ++ "=\x7b<ReactElement />\x7d")) ∧
    (∀ k, formatEntry k JSValue.funcVal =
        some ("  " ++ k ++ "=\x7b" ++ "undefined" ++ "\x7d")) ∧
    (∀ k, generateEntry k JSValue.funcVal =
        some ("  " ++ k ++ "=\x7b" ++ "undefined" ++ "\x7d")) :=
  ⟨⟨formatJSXEntries props, rfl⟩, ⟨generateJSXEntries props, rfl⟩,
    fun _ _ => rfl, fun _ => rfl, fun _ => rfl⟩

/--
**C10.** The serializer output starts with `<`, the name and a newline,
ends with a newline followed by `/>`, every emitted attribute is a line of
the newline-joined attribute block and starts with a two-space indent, and
when every entry is filtered out the attribute block is empty, leaving a
blank line between the name and `/>`.
-/
theorem serializer_output_shape (name : String) (props : PropSet) :
    (formatJSX name props =
        "<" ++ name ++ "\n" ++ String.intercalate "\n" (formatJSXEntries props) ++ "\n/>" ∧
      generateJSXCode name props =
        "<" ++ name ++ "\n" ++ String.intercalate "\n" (generateJSXEntries props) ++ "\n/>") ∧
    (∀ a ∈ formatJSXEntries props, ∃ rest, a = "  " ++ rest) ∧
    (∀ a ∈ generateJSXEntries props, ∃ rest, a = "  " ++ rest) ∧
    (formatJSXEntries props = [] → formatJSX name props = "<" ++ name ++ "\n\n/>") ∧
    (generateJSXEntries props = [] → generateJSXCode name props = "<" ++ name ++ "\n\n/>") := by
  have hfa : ∀ k v a, formatEntry k v = some a → ∃ rest, a = "  " ++ rest := by
    intro k v a h
    cases v with
    | boolVal b =>
        cases b
        · exact absurd h (by simp [formatEntry])
        · exact ⟨k, by simpa [formatEntry] using h.symm⟩
    | strVal s => exact ⟨k ++ "=\"" ++ s ++ "\"", by simpa [formatEntry, String.append_assoc] using h.symm⟩
    | undef => exact ⟨k ++ "=\x7bundefined\x7d", by simpa [formatEntry, jsonStringify, String.append_assoc] using h.symm⟩
    | numVal n => exact ⟨k ++ "=\x7b" ++ toString n ++ "\x7d", by simpa [formatEntry, jsonStringify, String.append_assoc] using h.symm⟩
    | reactElem j => exact ⟨k ++ "=\x7b<ReactElement />\x7d", by simpa [formatEntry, String.append_assoc] using h.symm⟩
    | jsonVal j => exact ⟨k ++ "=\x7b" ++ j ++ "\x7d", by simpa [formatEntry, jsonStringify, String.append_assoc] using h.symm⟩
    | funcVal => exact ⟨k ++ "=\x7bundefined\x7d", by simpa [formatEntry, jsonStringify, String.append_assoc] using h.symm⟩
  have hga : ∀ k v a, generateEntry k v = some a → ∃ rest, a = "  " ++ rest := by
    intro k v a h
    cases v with
    | boolVal b =>
        cases b
        · exact absurd h (by simp [generateEntry])
        · exact ⟨k, by simpa [generateEntry] using h.symm⟩
    | strVal s => exact ⟨k ++ "=\"" ++ s ++ "\"", by simpa [generateEntry, String.append_assoc] using h.symm⟩
    | undef => exact ⟨k ++ "=\x7bundefined\x7d", by simpa [generateEntry, jsonStringify, String.append_assoc] using h.symm⟩
    | numVal n => exact ⟨k ++ "=\x7b" ++ toString n ++ "\x7d", by simpa [generateEntry, jsonStringify, String.append_assoc] using h.symm⟩
    | reactElem j => exact ⟨k ++ "=\x7b" ++ j ++ "\x7d", by simpa [generateEntry, jsonStringify, String.append_assoc] using h.symm⟩
    | jsonVal j => exact ⟨k ++ "=\x7b" ++ j ++ "\x7d", by simpa [generateEntry, jsonStringify, String.append_assoc] using h.symm⟩
    | funcVal => exact ⟨k ++ "=\x7bundefined\x7d", by simpa [generateEntry, jsonStringify, String.append_assoc] using h.symm⟩
  refine ⟨⟨rfl, rfl⟩, ?_, ?_, ?_, ?_⟩
  · intro a ha
    rw [formatJSXEntries] at ha
    rcases List.mem_filterMap.mp ha with ⟨e, _, he⟩
    exact hfa e.1 e.2 a he
  · intro a ha
    rw [generateJSXEntries] at ha
    rcases List.mem_filterMap.mp ha with ⟨e, _, he⟩
    exact hga e.1 e.2 a he
  · intro h
    rw [formatJSX, h]
    show "<" ++ name ++ "\n" ++ "" ++ "\n/>" = _
    rw [String.append_empty, String.append_assoc]
    exact congrArg (fun t => "<" ++ name ++ t) (by decide)
  · intro h
    rw [generateJSXCode, h]
    show "<" ++ name ++ "\n" ++ "" ++ "\n/>" = _
    rw [String.append_empty, String.append_assoc]
    exact congrArg (fun t => "<" ++ name ++ t) (by decide)

/-- Witness for C10: with every entry filtered out, the output keeps a
blank line between the name and the closing marker. -/
theorem serializer_output_shape_witness :
    formatJSX "Alert" [("title", JSValue.strVal ""), ("open", JSValue.boolVal false)] =
      "<" ++ "Alert" ++ "\n\n/>" :=
  (serializer_output_shape "Alert"
      [("title", JSValue.strVal ""), ("open", JSValue.boolVal false)]).2.2.2.1 (by decide)

/-!
### Totality and determinism of the enumerator (C7)

The source recursion steps `index` towards `keys.length`; its measure is
the distance `keys.length - index`, which is the length of the list of
remaining entries in the structural embedding `combine`.  `combineFuel`
makes the measure explicit: it is `combine` with a step budget, giving up
(returning `[]`) when the budget is exhausted, and one unit more than the
measure is always enough budget.
-/

/-- `combine` with an explicit recursion budget. -/
def combineFuel : Nat → Options → PropSet → List PropSet
  | 0, _, _ => []
  | _ + 1, [], current => [current]
  | fuel + 1, e :: rest, current =>
      (optionValues e.2).flatMap (fun value => combineFuel fuel rest (setProp current e.1 value))

/--
**C7.** The enumerator is total and deterministic: the recursion needs at
most one step more than the distance between the current index and the
number of keys (the length of the remaining entry list), so any budget of
at least `options.length + 1` steps computes `combine` exactly; and equal
inputs give equal outputs.
-/
theorem combine_total_deterministic :
    (∀ (fuel : Nat) (options : Options) (current : PropSet),
        options.length + 1 ≤ fuel → combineFuel fuel options current = combine options current) ∧
    (∀ o₁ o₂ : Options, o₁ = o₂ → getAllCombinations o₁ = getAllCombinations o₂) := by
  constructor
  · intro fuel
    induction fuel with
    | zero =>
        intro options current h
        exact absurd h (by simp)
    | succ fuel ih =>
        intro options current h
        cases options with
        | nil => rfl
        | cons e rest =>
            simp only [combineFuel, combine]
            exact List.flatMap_congr (fun v _ => ih rest (setProp current e.1 v)
              (Nat.le_of_succ_le_succ (by simpa [List.length_cons, Nat.succ_le_succ_iff] using h)))
  · intro o₁ o₂ h
    rw [h]

/-- Witness for C7: budget `3` suffices for a two-property mapping. -/
theorem combine_total_deterministic_witness :
    combineFuel 3 [("a", some [JSValue.boolVal true]), ("b", some [JSValue.numVal 1])] [] =
      combine [("a", some [JSValue.boolVal true]), ("b", some [JSValue.numVal 1])] [] :=
  combine_total_deterministic.1 3
    [("a", some [JSValue.boolVal true]), ("b", some [JSValue.numVal 1])] [] (by decide)

/-!
### The browser merge of static and combination props (C9)

`ComponentCombinationBrowser` renders each combination with

```ts
const combinedProps = { ...staticProps, ...combo } as Props;
...
const jsxCode = formatJSX(name, combinedProps as Record<string, any>);
...
<Component {...combinedProps} />
```
-/

/-- The JavaScript object spread `{ ...staticProps, ...combo }`: start from
`staticProps` and assign each entry of `combo` in order. -/
def combinedProps (staticProps combo : PropSet) : PropSet :=
  combo.foldl (fun acc e => setProp acc e.1 e.2) staticProps

/-- The JSX string the browser shows for one combination. -/
def browserJSXCode (name : String) (staticProps combo : PropSet) : String :=
  formatJSX name (combinedProps staticProps combo)

theorem getProp_combinedProps (combo : PropSet) :
    ∀ staticProps : PropSet, (combo.map Prod.fst).Nodup → ∀ k : String,
      getProp (combinedProps staticProps combo) k =
        match getProp combo k with
        | some v => some v
        | none => getProp staticProps k := by
  induction combo with
  | nil => intro staticProps _ k; rfl
  | cons e rest ih =>
      intro staticProps hnd k
      rw [List.map_cons, List.nodup_cons] at hnd
      have hstep : combinedProps staticProps (e :: rest) =
          combinedProps (setProp staticProps e.1 e.2) rest := rfl
      rw [hstep, ih _ hnd.2 k, getProp_cons]
      by_cases hk : e.1 = k
      · subst hk
        have hnone : getProp rest e.1 = none := by
          rcases hfind : List.find? (fun x => x.1 == e.1) rest with _ | p
          · simp [getProp, hfind]
          · exact absurd (List.find?_some hfind)
              (by
                have := List.mem_of_find?_eq_some hfind
                intro hbeq
                exact hnd.1 (by
                  rw [List.mem_map]
                  exact ⟨p, this, by simpa using hbeq⟩))
        rw [hnone, if_pos rfl, getProp_setProp, if_pos rfl]
      · rw [if_neg hk, getProp_setProp, if_neg hk]

/--
**C9.** For every combination, the props the browser passes to the rendered
component and to the serializer are `staticProps` merged with the
combination, the combination's value winning whenever a key occurs in both:
reading any key from the merged object gives the combination's value when
the combination assigns the key, and the static value otherwise (and the
shown JSX is the serializer applied to exactly that merged object).
-/
theorem browser_combinedProps_precedence (options : Options) (staticProps combo : PropSet)
    (name : String) (hnd : (options.map Prod.fst).Nodup)
    (hc : combo ∈ getAllCombinations options) :
    (∀ k : String,
      getProp (combinedProps staticProps combo) k =
        match getProp combo k with
        | some v => some v
        | none => getProp staticProps k) ∧
    browserJSXCode name staticProps combo = formatJSX name (combinedProps staticProps combo) := by
  have hne : options ≠ [] := by
    rintro rfl
    rw [getAllCombinations] at hc
    exact absurd hc (by simp)
  rw [getAllCombinations, if_neg (by simpa [List.length_eq_zero] using hne)] at hc
  have hkeys := combine_keys options [] combo hc (by intro k _; simp) hnd
  refine ⟨fun k => getProp_combinedProps combo staticProps ?_ k, rfl⟩
  rw [hkeys]
  simpa using hnd

/-- Witness for C9 at a key present in both objects: the combination wins. -/
theorem browser_combinedProps_precedence_witness :
    (∀ k : String,
      getProp (combinedProps [("alertType", JSValue.strVal "info")]
          [("alertType", JSValue.strVal "error")]) k =
        match getProp [("alertType", JSValue.strVal "error")] k with
        | some v => some v
        | none => getProp [("alertType", JSValue.strVal "info")] k) ∧
    browserJSXCode "Alert" [("alertType", JSValue.strVal "info")]
        [("alertType", JSValue.strVal "error")] =
      formatJSX "Alert" (combinedProps [("alertType", JSValue.strVal "info")]
        [("alertType", JSValue.strVal "error")]) :=
  browser_combinedProps_precedence [("alertType", some [JSValue.strVal "error"])]
    [("alertType", JSValue.strVal "info")] [("alertType", JSValue.strVal "error")]
    "Alert" (by decide) (by decide)

/-!
### Re-parsing the rendered attribute list (C8)

The spec asserts the serializer is "idempotent on re-formatting its own
output's attribute list modulo whitespace".  No code of the repository
parses the rendered output back, so the parse direction is modelled from
the spec's own serialization rules.  The attribute list of the output is
the list of rendered attribute strings (the serializer builds exactly this
list and joins it with newlines).
-/

theorem mk_data (s : String) : String.mk s.data = s := rfl

/-- The contribution of one props entry to the rendered attribute list:
the omission filter followed by the rendering callback. -/
def emitAttr (e : String × JSValue) : Option String :=
  if keepEntry e.2 then formatEntry e.1 e.2 else none

theorem formatJSXEntries_eq_filterMap (props : PropSet) :
    formatJSXEntries props = props.filterMap emitAttr := by
  rw [formatJSXEntries, List.filterMap_filter]
  rfl

/--
Modelled from the spec: inverse of the three attribute forms the
serializer's rendering rules produce, applied to the remainder of one
rendered attribute after the attribute name (`key` is the name, the
remainder is what follows it):

* nothing        — a bare name parses as boolean `true`;
* `="value"`     — a quoted value (closing quote last) parses as a string;
* `={expr}`      — a braced expression parses as a JSON-encoded value.
-/
def parseAttrRest (key : List Char) : List Char → Option (String × JSValue)
  | [] => some (String.mk key, JSValue.boolVal true)
  | '=' :: '"' :: tail =>
      if tail.getLast? = some '"' then
        some (String.mk key, JSValue.strVal (String.mk tail.dropLast))
      else none
  | '=' :: '\x7b' :: tail =>
      if tail.getLast? = some '\x7d' then
        some (String.mk key, JSValue.jsonVal (String.mk tail.dropLast))
      else none
  | _ => none

/-- Modelled from the spec: parse one rendered attribute.  After the
two-space indent the attribute name extends to the first `=` (or to the end
of the attribute); the remainder is parsed by `parseAttrRest`. -/
def parseAttrChars : List Char → Option (String × JSValue)
  | ' ' :: ' ' :: body =>
      parseAttrRest (body.takeWhile (fun c => c != '='))
        (body.dropWhile (fun c => c != '='))
  | _ => none

/-- Modelled from the spec: parse one rendered attribute string. -/
def parseAttr (a : String) : Option (String × JSValue) :=
  parseAttrChars a.data

/-- Modelled from the spec: rebuild a props object from the attribute
list, dropping unparseable lines. -/
def parseProps (attrs : List String) : PropSet :=
  attrs.filterMap parseAttr

theorem split_at_first_eq (p : Char → Bool) (hp : p '=' = false) :
    ∀ K r : List Char, (∀ c ∈ K, p c = true) →
      (K ++ '=' :: r).takeWhile p = K ∧ (K ++ '=' :: r).dropWhile p = '=' :: r := by
  intro K
  induction K with
  | nil =>
      intro r _
      constructor
      · simp [List.takeWhile_cons, hp]
      · simp [List.dropWhile_cons, hp]
  | cons c K ih =>
      intro r h
      have hc : p c = true := h c (List.mem_cons_self _ _)
      have hK : ∀ d ∈ K, p d = true := fun d hd => h d (List.mem_cons_of_mem _ hd)
      constructor
      · simp [List.takeWhile_cons, hc, (ih r hK).1]
      · simp [List.dropWhile_cons, hc, (ih r hK).2]

theorem filterMap_congr_mem {α β : Type} (f g : α → Option β) :
    ∀ l : List α, (∀ x ∈ l, f x = g x) → l.filterMap f = l.filterMap g := by
  intro l
  induction l with
  | nil => intro _; rfl
  | cons x l ih =>
      intro h
      rw [List.filterMap_cons, List.filterMap_cons, h x (List.mem_cons_self _ _),
        ih (fun y hy => h y (List.mem_cons_of_mem _ hy))]

/-- Evaluation of the parser on a rendered braced-expression attribute. -/
theorem parseAttrChars_braceForm (K J : List Char) (hK : ∀ c ∈ K, (c != '=') = true) :
    parseAttrChars (' ' :: ' ' :: (K ++ '=' :: '\x7b' :: (J ++ ['\x7d']))) =
      some (String.mk K, JSValue.jsonVal (String.mk J)) := by
  have h := split_at_first_eq (fun c => c != '=') (by decide) K
    ('\x7b' :: (J ++ ['\x7d'])) hK
  rw [parseAttrChars, h.1, h.2, parseAttrRest, List.getLast?_concat, if_pos rfl,
    List.dropLast_concat]

/-- Evaluation of the parser on a rendered quoted-string attribute. -/
theorem parseAttrChars_quoteForm (K S : List Char) (hK : ∀ c ∈ K, (c != '=') = true) :
    parseAttrChars (' ' :: ' ' :: (K ++ '=' :: '"' :: (S ++ ['"']))) =
      some (String.mk K, JSValue.strVal (String.mk S)) := by
  have h := split_at_first_eq (fun c => c != '=') (by decide) K ('"' :: (S ++ ['"'])) hK
  rw [parseAttrChars, h.1, h.2, parseAttrRest, List.getLast?_concat, if_pos rfl,
    List.dropLast_concat]

/-- Evaluation of the parser on a rendered bare-name attribute. -/
theorem parseAttrChars_bareForm (K : List Char) (hK : ∀ c ∈ K, (c != '=') = true) :
    parseAttrChars (' ' :: ' ' :: K) = some (String.mk K, JSValue.boolVal true) := by
  rw [parseAttrChars, List.dropWhile_eq_nil_iff.mpr hK, List.takeWhile_eq_self_iff.mpr hK,
    parseAttrRest]

/-- A rendered attribute of a key without `=` parses back to a pair that
renders to the very same attribute string. -/
theorem parseAttr_roundtrip (k : String) (v : JSValue) (a : String)
    (hk : ∀ c ∈ k.data, c ≠ '=') (h : emitAttr (k, v) = some a) :
    ∃ p, parseAttr a = some p ∧ emitAttr p = some a := by
  have hkb : ∀ c ∈ k.data, (c != '=') = true := by
    intro c hc
    simpa using hk c hc
  cases v with
  | undef => exact absurd h (by simp [emitAttr, keepEntry])
  | boolVal b =>
      cases b
      · exact absurd h (by simp [emitAttr, keepEntry, formatEntry])
      · have ha : a = "  " ++ k := by
          have := h
          simp only [emitAttr, keepEntry, formatEntry] at this
          exact (Option.some.inj (by simpa using this)).symm
        refine ⟨(k, JSValue.boolVal true), ?_, ?_⟩
        · have hdata : a.data = ' ' :: ' ' :: k.data := by
            rw [ha, String.data_append]
            rfl
          rw [parseAttr, hdata, parseAttrChars_bareForm k.data hkb, mk_data]
        · exact h
  | strVal s =>
      by_cases hs : s = ""
      · subst hs
        exact absurd h (by simp [emitAttr, keepEntry])
      · have hkeep : keepEntry (JSValue.strVal s) = true := by
          simp [keepEntry, hs]
        have ha : a = "  " ++ k ++ "=\"" ++ s ++ "\"" := by
          have := h
          simp only [emitAttr, hkeep, if_true, formatEntry] at this
          exact (Option.some.inj this).symm
        refine ⟨(k, JSValue.strVal s), ?_, ?_⟩
        · have hdata : a.data =
              ' ' :: ' ' :: (k.data ++ '=' :: '"' :: (s.data ++ ['"'])) := by
            rw [ha]
            simp [String.data_append]
          rw [parseAttr, hdata, parseAttrChars_quoteForm k.data s.data hkb, mk_data, mk_data]
        · exact h
  | numVal n =>
      have ha : a = "  " ++ k ++ "=\x7b" ++ toString n ++ "\x7d" := by
        have := h
        simp only [emitAttr, keepEntry, formatEntry, jsonStringify] at this
        exact (Option.some.inj (by simpa using this)).symm
      refine ⟨(k, JSValue.jsonVal (toString n)), ?_, ?_⟩
      · have hdata : a.data =
            ' ' :: ' ' :: (k.data ++ '=' :: '\x7b' :: ((toString n).data ++ ['\x7d'])) := by
          rw [ha]
          simp [String.data_append]
        rw [parseAttr, hdata, parseAttrChars_braceForm k.data (toString n).data hkb,
          mk_data, mk_data]
      · rw [ha]
        rfl
  | reactElem j =>
      have ha : a = "  " ++ k ++ "=\x7b<ReactElement />\x7d" := by
        have := h
        simp only [emitAttr, keepEntry, formatEntry] at this
        exact (Option.some.inj (by simpa using this)).symm
      refine ⟨(k, JSValue.jsonVal "<ReactElement />"), ?_, ?_⟩
      · have hdata : a.data =
            ' ' :: ' ' :: (k.data ++ '=' :: '\x7b' :: ("<ReactElement />".data ++ ['\x7d'])) := by
          rw [ha]
          simp [String.data_append]
        rw [parseAttr, hdata, parseAttrChars_braceForm k.data "<ReactElement />".data hkb,
          mk_data]
      · rw [ha]
        show some ("  " ++ k ++ "=\x7b" ++ "<ReactElement />" ++ "\x7d") =
          some ("  " ++ k ++ "=\x7b<ReactElement />\x7d")
        refine congrArg some ?_
        rw [String.append_assoc, String.append_assoc]
        exact congrArg (fun t => "  " ++ k ++ t) (by decide)
  | jsonVal j =>
      have ha : a = "  " ++ k ++ "=\x7b" ++ j ++ "\x7d" := by
        have := h
        simp only [emitAttr, keepEntry, formatEntry, jsonStringify] at this
        exact (Option.some.inj (by simpa using this)).symm
      refine ⟨(k, JSValue.jsonVal j), ?_, ?_⟩
      · have hdata : a.data =
            ' ' :: ' ' :: (k.data ++ '=' :: '\x7b' :: (j.data ++ ['\x7d'])) := by
          rw [ha]
          simp [String.data_append]
        rw [parseAttr, hdata, parseAttrChars_braceForm k.data j.data hkb, mk_data, mk_data]
      · exact h
  | funcVal =>
      have ha : a = "  " ++ k ++ "=\x7b" ++ "undefined" ++ "\x7d" := by
        have := h
        simp only [emitAttr, keepEntry, formatEntry, jsonStringify] at this
        exact (Option.some.inj (by simpa using this)).symm
      refine ⟨(k, JSValue.jsonVal "undefined"), ?_, ?_⟩
      · have hdata : a.data =
            ' ' :: ' ' :: (k.data ++ '=' :: '\x7b' :: ("undefined".data ++ ['\x7d'])) := by
          rw [ha]
          simp [String.data_append]
        rw [parseAttr, hdata, parseAttrChars_braceForm k.data "undefined".data hkb, mk_data]
      · rw [ha]
        rfl

/--
**C8 counterexample.** The round trip fails as universally stated: for the
props object `{"a=b": true}` (a legal JavaScript key containing `=`) the
serializer emits the attribute `  a=b`, which parses as no valid attribute
form, so re-serializing the parsed attribute list yields an empty attribute
list instead of the original one-attribute list.
-/
theorem serializer_roundtrip_counterexample :
    (formatJSXEntries (parseProps (formatJSXEntries [("a=b", JSValue.boolVal true)]))).length = 0 ∧
    (formatJSXEntries [("a=b", JSValue.boolVal true)]).length = 1 := by
  constructor <;> decide

/--
**C8 (amended).** For every props object whose keys contain no `=`
character, parsing the serializer's rendered attribute list back into a
props object and serializing that object again yields exactly the same
attribute list (so in particular the same list modulo whitespace).
-/
theorem serializer_roundtrip (props : PropSet)
    (hk : ∀ e ∈ props, ∀ c ∈ e.1.data, c ≠ '=') :
    formatJSXEntries (parseProps (formatJSXEntries props)) = formatJSXEntries props := by
  rw [formatJSXEntries_eq_filterMap props, parseProps, formatJSXEntries_eq_filterMap,
    List.filterMap_filterMap, List.filterMap_filterMap]
  refine filterMap_congr_mem _ _ props ?_
  intro e he
  rcases hemit : emitAttr e with _ | a
  · rfl
  · rcases parseAttr_roundtrip e.1 e.2 a (hk e he) (by rw [← hemit]) with ⟨p, hp, hpe⟩
    simp only [Option.bind_some, hp, Option.bind, hpe]

/-- Witness for C8 (amended) at a concrete props object with `=`-free keys. -/
theorem serializer_roundtrip_witness :
    formatJSXEntries (parseProps (formatJSXEntries
        [("alertType", JSValue.strVal "info"), ("open", JSValue.boolVal true),
         ("count", JSValue.numVal 3)])) =
      formatJSXEntries
        [("alertType", JSValue.strVal "info"), ("open", JSValue.boolVal true),
         ("count", JSValue.numVal 3)] :=
  serializer_roundtrip
    [("alertType", JSValue.strVal "info"), ("open", JSValue.boolVal true),
     ("count", JSValue.numVal 3)] (by decide)

end SealedScroll
